/-
  Verification of the backsplash coordinate-conversion library
  (Web Mercator projections, tile indexing, zoom selection).

  The JavaScript number type is modelled by the real numbers ℝ; tile
  indices and zoom levels, which the code produces with Math.floor and
  consumes as integers, are modelled by ℤ.
-/
import Mathlib

namespace Backsplash

open Real

/-- `LatLong` from src/index.ts: latitude and longitude in degrees. -/
structure LatLong where
  latitude : ℝ
  longitude : ℝ

/-- `LatLongBounds` from src/index.ts. -/
structure LatLongBounds where
  topLeft : LatLong
  bottomRight : LatLong

/-- `degToRad(deg) = deg/180.0 * Math.PI`. -/
noncomputable def degToRad (deg : ℝ) : ℝ := deg / 180 * Real.pi

/-- `EARTH_RADIUS_METERS = 6372800`. -/
def EARTH_RADIUS_METERS : ℝ := 6372800

/-- The intermediate `a` of `haversineMeters`:
`sin(dLat/2)^2 + sin(dLon/2)^2 * cos(lat1) * cos(lat2)`
with all angles first converted to radians. -/
noncomputable def haversineA (pt1 pt2 : LatLong) : ℝ :=
  let lat1 := degToRad pt1.latitude
  let lon1 := degToRad pt1.longitude
  let lat2 := degToRad pt2.latitude
  let lon2 := degToRad pt2.longitude
  let dLat := lat2 - lat1
  let dLon := lon2 - lon1
  Real.sin (dLat / 2) * Real.sin (dLat / 2) +
    Real.sin (dLon / 2) * Real.sin (dLon / 2) * Real.cos lat1 * Real.cos lat2

/-- `haversineMeters` from src/index.ts: `c = 2 * asin(sqrt(a))`, result
`EARTH_RADIUS_METERS * c`. -/
noncomputable def haversineMeters (pt1 pt2 : LatLong) : ℝ :=
  EARTH_RADIUS_METERS * (2 * Real.arcsin (Real.sqrt (haversineA pt1 pt2)))

/-- `clamp(x, [min, max]) = x > max ? max : x < min ? min : x`. -/
def clamp {α : Type} [LinearOrder α] (x : α) (p : α × α) : α :=
  if x > p.2 then p.2 else if x < p.1 then p.1 else x

/-- `googleZoomLevel(loc, metersPerPx)`:
`clamp(Math.floor(log2(156543.03392 * cos(lat·π/180) / metersPerPx)), [1, 20])`. -/
noncomputable def googleZoomLevel (loc : LatLong) (metersPerPx : ℝ) : ℤ :=
  let idealZoom := Real.logb 2
    (156543.03392 * Real.cos (loc.latitude * Real.pi / 180) / metersPerPx)
  clamp ⌊idealZoom⌋ (1, 20)

/-- `googleZoomMetersPerPx({latitude}, zoom) =
156543.03392 * cos(latitude·π/180) / 2^zoom`. -/
noncomputable def googleZoomMetersPerPx (loc : LatLong) (zoom : ℤ) : ℝ :=
  156543.03392 * Real.cos (loc.latitude * Real.pi / 180) / (2 : ℝ) ^ zoom

/-- `chooseZoom(extent, clientWidth)` from src/index.ts. -/
noncomputable def chooseZoom (extent : LatLongBounds) (clientWidth : ℝ) : ℤ :=
  let topRight : LatLong :=
    { latitude := extent.topLeft.latitude
      longitude := extent.bottomRight.longitude }
  let metersWidth := haversineMeters extent.topLeft topRight
  let desiredMetersPerPx := metersWidth / clientWidth
  googleZoomLevel topRight desiredMetersPerPx

/-- `WorldCoordinate`: a point of the 256×256 Mercator square (the
`type` discriminant tag carries no data and is dropped). -/
structure WorldCoordinate where
  x : ℝ
  y : ℝ

/-- `GOOGLE_TILE_SIZE = 256`. -/
def GOOGLE_TILE_SIZE : ℝ := 256

/-- `toWorldCoords({latitude, longitude})`: the spherical-Mercator forward
projection with the sine clamped to [-0.9999, 0.9999]. -/
noncomputable def toWorldCoords (loc : LatLong) : WorldCoordinate :=
  let siny := clamp (Real.sin (loc.latitude * Real.pi / 180)) (-0.9999, 0.9999)
  { x := GOOGLE_TILE_SIZE * (0.5 + loc.longitude / 360)
    y := GOOGLE_TILE_SIZE * (0.5 - Real.log ((1 + siny) / (1 - siny)) / (4 * Real.pi)) }

/-- `EXP_2pi = Math.exp(Math.PI * 2)`. -/
noncomputable def EXP_2pi : ℝ := Real.exp (Real.pi * 2)

/-- `worldToLatLng({x, y})`: the inverse Mercator projection. -/
noncomputable def worldToLatLng (w : WorldCoordinate) : LatLong :=
  let longitude := (w.x / GOOGLE_TILE_SIZE - 0.5) * 360
  let e_to_4pi_y_over_G := Real.exp (4 * Real.pi * w.y / GOOGLE_TILE_SIZE)
  let siny := (EXP_2pi - e_to_4pi_y_over_G) / (EXP_2pi + e_to_4pi_y_over_G)
  let latitude := Real.arcsin siny * 180 / Real.pi
  { latitude := latitude, longitude := longitude }

/-- `PixelCoordinate`: world coordinate scaled by `2^zoom`, carrying its zoom. -/
structure PixelCoordinate where
  x : ℝ
  y : ℝ
  zoom : ℤ

/-- The scale factor `1 << zoom` of worldToPixelCoords/pixelToWorldCoords.
JavaScript's `<<` reduces its right operand modulo 32, hence `zoom % 32`;
for the zoom range 1..20 used throughout this equals `2^zoom`. -/
noncomputable def zoomFactor (zoom : ℤ) : ℝ := 2 ^ (zoom % 32).toNat

/-- `worldToPixelCoords(w, zoom)`: multiply both axes by `1 << zoom`. -/
noncomputable def worldToPixelCoords (w : WorldCoordinate) (zoom : ℤ) : PixelCoordinate :=
  { x := w.x * zoomFactor zoom
    y := w.y * zoomFactor zoom
    zoom := zoom }

/-- `pixelToWorldCoords(p)`: divide both axes by `1 << zoom`. -/
noncomputable def pixelToWorldCoords (p : PixelCoordinate) : WorldCoordinate :=
  { x := p.x / zoomFactor p.zoom
    y := p.y / zoomFactor p.zoom }

/-- `TileCoordinate`: integer tile index plus zoom (the code produces the
indices with `Math.floor`, modelled by ⌊·⌋ : ℝ → ℤ). -/
structure TileCoordinate where
  x : ℤ
  y : ℤ
  zoom : ℤ
deriving DecidableEq

/-- `pixelToTileCoords(p)`: `floor(pixel / 256)` per axis, zoom unchanged. -/
noncomputable def pixelToTileCoords (p : PixelCoordinate) : TileCoordinate :=
  { x := ⌊p.x / GOOGLE_TILE_SIZE⌋
    y := ⌊p.y / GOOGLE_TILE_SIZE⌋
    zoom := p.zoom }

/-- `PixelCoordinateBounds` from src/index.ts. -/
structure PixelCoordinateBounds where
  topLeft : PixelCoordinate
  bottomRight : PixelCoordinate

/-- `tileToPixelCoords(t)`: the pixel bounds of tile `t`. -/
noncomputable def tileToPixelCoords (t : TileCoordinate) : PixelCoordinateBounds :=
  { topLeft :=
      { x := t.x * GOOGLE_TILE_SIZE
        y := t.y * GOOGLE_TILE_SIZE
        zoom := t.zoom }
    bottomRight :=
      { x := (t.x + 1) * GOOGLE_TILE_SIZE
        y := (t.y + 1) * GOOGLE_TILE_SIZE
        zoom := t.zoom } }

/-- `tileCoordinate(loc, zoom)`: geodetic point to tile index. -/
noncomputable def tileCoordinate (loc : LatLong) (zoom : ℤ) : TileCoordinate :=
  pixelToTileCoords (worldToPixelCoords (toWorldCoords loc) zoom)

/-- `inclusiveRange(min, max)`: starts at `[min]` and pushes successive
integers while the last element is `< max`. -/
def inclusiveRange (mn mx : ℤ) : List ℤ :=
  if mn < mx then mn :: inclusiveRange (mn + 1) mx else [mn]
termination_by (mx - mn).toNat
decreasing_by omega

/-- `tileCoordinates(extent, zoom)`: nested forEach over
`inclusiveRange(tl.x, br.x)` (outer) and `inclusiveRange(tl.y, br.y)` (inner). -/
noncomputable def tileCoordinates (extent : LatLongBounds) (zoom : ℤ) : List TileCoordinate :=
  let tl := tileCoordinate extent.topLeft zoom
  let br := tileCoordinate extent.bottomRight zoom
  let xs := inclusiveRange tl.x br.x
  let ys := inclusiveRange tl.y br.y
  xs.flatMap (fun x => ys.map (fun y => { x := x, y := y, zoom := zoom }))

/-! ## Theorems -/

/-- C5: for every input point and metersPerPx value, regardless of magnitude,
the result of `googleZoomLevel` (and hence of `chooseZoom`) is an integer in
[1, 20] — a zoom level outside this range is never produced. -/
theorem googleZoomLevel_mem_range (loc : LatLong) (metersPerPx : ℝ)
    (extent : LatLongBounds) (clientWidth : ℝ) :
    (1 ≤ googleZoomLevel loc metersPerPx ∧ googleZoomLevel loc metersPerPx ≤ 20) ∧
    (1 ≤ chooseZoom extent clientWidth ∧ chooseZoom extent clientWidth ≤ 20) := by
  have h : ∀ (l : LatLong) (m : ℝ),
      1 ≤ googleZoomLevel l m ∧ googleZoomLevel l m ≤ 20 := by
    intro l m
    simp only [googleZoomLevel, clamp]
    split
    · omega
    · split <;> omega
  exact ⟨h loc metersPerPx, h _ _⟩

/-- C6: for every pair of GeoPoints `a` and `b`,
`haversineMeters a b = haversineMeters b a` exactly. -/
theorem haversineMeters_comm (a b : LatLong) :
    haversineMeters a b = haversineMeters b a := by
  have sswap : ∀ x y : ℝ,
      Real.sin ((x - y) / 2) * Real.sin ((x - y) / 2) =
        Real.sin ((y - x) / 2) * Real.sin ((y - x) / 2) := by
    intro x y
    rw [show (x - y) / 2 = -((y - x) / 2) by ring, Real.sin_neg]
    ring
  have key : haversineA a b = haversineA b a := by
    unfold haversineA
    simp only
    rw [sswap (degToRad b.latitude) (degToRad a.latitude),
      sswap (degToRad b.longitude) (degToRad a.longitude)]
    ring
  unfold haversineMeters
  rw [key]

/-- C9: `chooseZoom`'s result does not depend on the bottom-right corner's
latitude: two bounds agreeing on topLeft and on bottomRight.longitude get
equal zoom levels for any viewport width. -/
theorem chooseZoom_ignores_bottomRight_latitude
    (tl : LatLong) (lat1 lat2 lng w : ℝ) :
    chooseZoom ⟨tl, ⟨lat1, lng⟩⟩ w = chooseZoom ⟨tl, ⟨lat2, lng⟩⟩ w := rfl

theorem inclusiveRange_ne_nil (mn mx : ℤ) : inclusiveRange mn mx ≠ [] := by
  rw [inclusiveRange]
  split <;> simp

theorem inclusiveRange_self (x : ℤ) : inclusiveRange x x = [x] := by
  rw [inclusiveRange]
  simp

/-- C10: `tileCoordinates` never returns an empty list: both inclusive
ranges hold at least their starting element, whatever the corner order. -/
theorem tileCoordinates_ne_nil (extent : LatLongBounds) (zoom : ℤ) :
    tileCoordinates extent zoom ≠ [] := by
  have h1 := inclusiveRange_ne_nil (tileCoordinate extent.topLeft zoom).x
      (tileCoordinate extent.bottomRight zoom).x
  have h2 := inclusiveRange_ne_nil (tileCoordinate extent.topLeft zoom).y
      (tileCoordinate extent.bottomRight zoom).y
  unfold tileCoordinates
  simp only
  intro h
  rw [List.flatMap_eq_nil_iff] at h
  rcases List.exists_mem_of_ne_nil _ h1 with ⟨x, hx⟩
  have hmap := h _ hx
  rw [List.map_eq_nil_iff] at hmap
  exact h2 hmap

/-- C7: for every GeoPoint `p` and zoom in [1, 20], the degenerate box
`{topLeft := p, bottomRight := p}` yields exactly one tile. -/
theorem tileCoordinates_degenerate_length (p : LatLong) (zoom : ℤ)
    (h1 : 1 ≤ zoom) (h2 : zoom ≤ 20) :
    (tileCoordinates ⟨p, p⟩ zoom).length = 1 := by
  unfold tileCoordinates
  simp only [inclusiveRange_self]
  simp

/-- Witness for C7 at `p = (0, 0)`, zoom 1. -/
theorem tileCoordinates_degenerate_length_witness :
    (1 : ℤ) ≤ 1 ∧ (1 : ℤ) ≤ 20 ∧
    (tileCoordinates ⟨⟨0, 0⟩, ⟨0, 0⟩⟩ 1).length = 1 :=
  ⟨by norm_num, by norm_num,
    tileCoordinates_degenerate_length ⟨0, 0⟩ 1 (by norm_num) (by norm_num)⟩

/-- C2: for every tile `tc` and weights strictly between 0 and 1, the pixel
built as the per-axis convex combination of the topLeft and bottomRight
corners of `tileToPixelCoords tc` (carrying `tc`'s zoom) maps back to
exactly `tc` under `pixelToTileCoords`. -/
theorem pixelToTileCoords_convex_combination (tc : TileCoordinate) (wx wy : ℝ)
    (hx0 : 0 < wx) (hx1 : wx < 1) (hy0 : 0 < wy) (hy1 : wy < 1) :
    pixelToTileCoords
      { x := wx * (tileToPixelCoords tc).topLeft.x +
          (1 - wx) * (tileToPixelCoords tc).bottomRight.x
        y := wy * (tileToPixelCoords tc).topLeft.y +
          (1 - wy) * (tileToPixelCoords tc).bottomRight.y
        zoom := tc.zoom } = tc := by
  have key : ∀ (n : ℤ) (w : ℝ), 0 < w → w < 1 →
      ⌊(w * ((n : ℝ) * GOOGLE_TILE_SIZE) +
        (1 - w) * (((n : ℝ) + 1) * GOOGLE_TILE_SIZE)) / GOOGLE_TILE_SIZE⌋ = n := by
    intro n w h0 h1
    unfold GOOGLE_TILE_SIZE
    rw [show (w * ((n : ℝ) * 256) + (1 - w) * (((n : ℝ) + 1) * 256)) / 256 =
      (n : ℝ) + (1 - w) by ring]
    rw [Int.floor_int_add,
      Int.floor_eq_zero_iff.mpr (Set.mem_Ico.mpr ⟨by linarith, by linarith⟩)]
    ring
  obtain ⟨tx, ty, tz⟩ := tc
  unfold pixelToTileCoords tileToPixelCoords
  simp only
  rw [key tx wx hx0 hx1, key ty wy hy0 hy1]

/-- Witness for C2 at tile (0, 0, zoom 1) with both weights 1/2. -/
theorem pixelToTileCoords_convex_combination_witness :
    (0 : ℝ) < 1 / 2 ∧ (1 / 2 : ℝ) < 1 ∧
    pixelToTileCoords
      { x := (1 / 2 : ℝ) * (tileToPixelCoords ⟨0, 0, 1⟩).topLeft.x +
          (1 - 1 / 2) * (tileToPixelCoords ⟨0, 0, 1⟩).bottomRight.x
        y := (1 / 2 : ℝ) * (tileToPixelCoords ⟨0, 0, 1⟩).topLeft.y +
          (1 - 1 / 2) * (tileToPixelCoords ⟨0, 0, 1⟩).bottomRight.y
        zoom := (1 : ℤ) } = ⟨0, 0, 1⟩ :=
  ⟨by norm_num, by norm_num,
    pixelToTileCoords_convex_combination ⟨0, 0, 1⟩ (1 / 2) (1 / 2)
      (by norm_num) (by norm_num) (by norm_num) (by norm_num)⟩

/-- The inclusive integer range [mn..mx] as described by the spec: the list
`mn, mn+1, …, mx`, built here independently of the source's while-loop as a
map over `List.range`. -/
def intRange (mn mx : ℤ) : List ℤ :=
  (List.range (mx - mn + 1).toNat).map (fun (i : ℕ) => mn + (i : ℤ))

theorem intRange_cons (mn mx : ℤ) (h : mn < mx) :
    intRange mn mx = mn :: intRange (mn + 1) mx := by
  unfold intRange
  rw [show (mx - mn + 1).toNat = (mx - (mn + 1) + 1).toNat + 1 by omega,
    List.range_succ_eq_map, List.map_cons, List.map_map]
  refine List.cons_eq_cons.mpr ⟨by simp, ?_⟩
  apply List.map_congr_left
  intro i _
  simp only [Function.comp_apply, Nat.succ_eq_add_one]
  push_cast
  ring

theorem inclusiveRange_eq_intRange (mn mx : ℤ) (h : mn ≤ mx) :
    inclusiveRange mn mx = intRange mn mx := by
  obtain ⟨k, rfl⟩ : ∃ k : ℕ, mx = mn + k := ⟨(mx - mn).toNat, by omega⟩
  clear h
  induction k generalizing mn with
  | zero =>
    rw [inclusiveRange, if_neg (by omega)]
    unfold intRange
    rw [show (mn + ((0 : ℕ) : ℤ) - mn + 1).toNat = 1 by omega,
      List.range_succ, List.range_zero, List.nil_append, List.map_cons, List.map_nil]
    simp
  | succ n ih =>
    rw [inclusiveRange, if_pos (by omega), intRange_cons _ _ (by omega),
      show mn + ((n + 1 : ℕ) : ℤ) = (mn + 1) + (n : ℤ) by push_cast; ring,
      ih (mn + 1)]

theorem length_flatMap_const {α β : Type} (l : List α) (f : α → List β) (n : ℕ)
    (h : ∀ a ∈ l, (f a).length = n) : (l.flatMap f).length = l.length * n := by
  induction l with
  | nil => simp
  | cons a t ih =>
    rw [List.flatMap_cons, List.length_append, h a (by simp),
      ih (fun b hb => h b (by simp [hb])), List.length_cons]
    ring

/-- C4: when the top-left corner's tile index is component-wise at most the
bottom-right corner's, `tileCoordinates` is exactly the Cartesian product of
the two inclusive index ranges, enumerated x-major then y, each element
carrying the given zoom, and its length is (Δx+1)·(Δy+1). -/
theorem tileCoordinates_cartesian (extent : LatLongBounds) (zoom : ℤ)
    (hx : (tileCoordinate extent.topLeft zoom).x ≤ (tileCoordinate extent.bottomRight zoom).x)
    (hy : (tileCoordinate extent.topLeft zoom).y ≤ (tileCoordinate extent.bottomRight zoom).y) :
    tileCoordinates extent zoom =
      (intRange (tileCoordinate extent.topLeft zoom).x
          (tileCoordinate extent.bottomRight zoom).x).flatMap
        (fun x => (intRange (tileCoordinate extent.topLeft zoom).y
            (tileCoordinate extent.bottomRight zoom).y).map
          (fun y => { x := x, y := y, zoom := zoom })) ∧
    ((tileCoordinates extent zoom).length : ℤ) =
      ((tileCoordinate extent.bottomRight zoom).x -
        (tileCoordinate extent.topLeft zoom).x + 1) *
      ((tileCoordinate extent.bottomRight zoom).y -
        (tileCoordinate extent.topLeft zoom).y + 1) := by
  have hmain : tileCoordinates extent zoom =
      (intRange (tileCoordinate extent.topLeft zoom).x
          (tileCoordinate extent.bottomRight zoom).x).flatMap
        (fun x => (intRange (tileCoordinate extent.topLeft zoom).y
            (tileCoordinate extent.bottomRight zoom).y).map
          (fun y => { x := x, y := y, zoom := zoom })) := by
    unfold tileCoordinates
    simp only
    rw [inclusiveRange_eq_intRange _ _ hx, inclusiveRange_eq_intRange _ _ hy]
  refine ⟨hmain, ?_⟩
  rw [hmain]
  rw [length_flatMap_const _ _
    ((tileCoordinate extent.bottomRight zoom).y -
      (tileCoordinate extent.topLeft zoom).y + 1).toNat
    (by intro a _; simp [intRange])]
  rw [show (intRange (tileCoordinate extent.topLeft zoom).x
      (tileCoordinate extent.bottomRight zoom).x).length =
      ((tileCoordinate extent.bottomRight zoom).x -
        (tileCoordinate extent.topLeft zoom).x + 1).toNat by simp [intRange]]
  push_cast
  rw [Int.toNat_of_nonneg (by omega), Int.toNat_of_nonneg (by omega)]

/-- Witness for C4 at the degenerate box around `(0, 0)` at zoom 1, where
both corner tiles coincide and the corner hypotheses hold by reflexivity. -/
theorem tileCoordinates_cartesian_witness :
    tileCoordinates ⟨⟨0, 0⟩, ⟨0, 0⟩⟩ 1 =
      (intRange (tileCoordinate ⟨0, 0⟩ 1).x (tileCoordinate ⟨0, 0⟩ 1).x).flatMap
        (fun x => (intRange (tileCoordinate ⟨0, 0⟩ 1).y
            (tileCoordinate ⟨0, 0⟩ 1).y).map
          (fun y => { x := x, y := y, zoom := (1 : ℤ) })) ∧
    ((tileCoordinates ⟨⟨0, 0⟩, ⟨0, 0⟩⟩ 1).length : ℤ) =
      ((tileCoordinate ⟨0, 0⟩ 1).x - (tileCoordinate ⟨0, 0⟩ 1).x + 1) *
      ((tileCoordinate ⟨0, 0⟩ 1).y - (tileCoordinate ⟨0, 0⟩ 1).y + 1) :=
  tileCoordinates_cartesian ⟨⟨0, 0⟩, ⟨0, 0⟩⟩ 1 (le_refl _) (le_refl _)

/-- C3: for every point whose latitude does not have cosine exactly zero and
every zoom in [1, 20], `googleZoomLevel` applied to
`googleZoomMetersPerPx` at that point recovers the zoom. -/
theorem googleZoom_round_trip (loc : LatLong) (zoom : ℤ)
    (h1 : 1 ≤ zoom) (h2 : zoom ≤ 20)
    (hc : Real.cos (loc.latitude * Real.pi / 180) ≠ 0) :
    googleZoomLevel loc (googleZoomMetersPerPx loc zoom) = zoom := by
  simp only [googleZoomLevel, googleZoomMetersPerPx]
  have h2z : ((2 : ℝ) ^ zoom) ≠ 0 := zpow_ne_zero _ (by norm_num)
  have hratio : 156543.03392 * Real.cos (loc.latitude * Real.pi / 180) /
      (156543.03392 * Real.cos (loc.latitude * Real.pi / 180) / (2 : ℝ) ^ zoom) =
      (2 : ℝ) ^ zoom := by
    field_simp
  rw [hratio, ← Real.rpow_intCast 2 zoom,
    Real.logb_rpow (by norm_num) (by norm_num), Int.floor_intCast]
  unfold clamp
  simp only
  split
  · omega
  · split <;> omega

/-- Witness for C3 at the point (0, 0) with zoom 3. -/
theorem googleZoom_round_trip_witness :
    (1 : ℤ) ≤ 3 ∧ (3 : ℤ) ≤ 20 ∧
    Real.cos ((⟨0, 0⟩ : LatLong).latitude * Real.pi / 180) ≠ 0 ∧
    googleZoomLevel ⟨0, 0⟩ (googleZoomMetersPerPx ⟨0, 0⟩ 3) = 3 :=
  ⟨by norm_num, by norm_num, by simp,
    googleZoom_round_trip ⟨0, 0⟩ 3 (by norm_num) (by norm_num) (by simp)⟩

theorem sin_half_mul_self (x : ℝ) :
    Real.sin (x / 2) * Real.sin (x / 2) = (1 - Real.cos x) / 2 := by
  have h1 := Real.cos_two_mul (x / 2)
  rw [show 2 * (x / 2) = x by ring] at h1
  have h2 := Real.sin_sq (x / 2)
  rw [pow_two] at h2
  linarith

theorem hav_core_mem (p q d : ℝ) :
    0 ≤ Real.sin ((q - p) / 2) * Real.sin ((q - p) / 2) +
        Real.sin (d / 2) * Real.sin (d / 2) * Real.cos p * Real.cos q ∧
      Real.sin ((q - p) / 2) * Real.sin ((q - p) / 2) +
        Real.sin (d / 2) * Real.sin (d / 2) * Real.cos p * Real.cos q ≤ 1 := by
  rw [sin_half_mul_self, sin_half_mul_self]
  have hqp := Real.cos_sub q p
  have hsum := Real.cos_add q p
  have hc1 := Real.neg_one_le_cos (q - p)
  have hc2 := Real.cos_le_one (q - p)
  have hc3 := Real.neg_one_le_cos (q + p)
  have hc4 := Real.cos_le_one (q + p)
  have hd1 := Real.neg_one_le_cos d
  have hd2 := Real.cos_le_one d
  constructor
  · nlinarith [mul_nonneg (by linarith : (0:ℝ) ≤ 1 + Real.cos d)
        (by nlinarith : (0:ℝ) ≤ 1 - (Real.cos q * Real.cos p + Real.sin q * Real.sin p)),
      mul_nonneg (by linarith : (0:ℝ) ≤ 1 - Real.cos d)
        (by nlinarith : (0:ℝ) ≤ 1 - (Real.sin q * Real.sin p - Real.cos q * Real.cos p))]
  · nlinarith [mul_nonneg (by linarith : (0:ℝ) ≤ 1 + Real.cos d)
        (by nlinarith : (0:ℝ) ≤ 1 + (Real.cos q * Real.cos p + Real.sin q * Real.sin p)),
      mul_nonneg (by linarith : (0:ℝ) ≤ 1 - Real.cos d)
        (by nlinarith : (0:ℝ) ≤ 1 + (Real.sin q * Real.sin p - Real.cos q * Real.cos p))]

/-- C8: for every pair of points, the haversine intermediate value `a` lies
in [0, 1] — so the square root and arcsine arguments stay inside their
domains — and the returned distance is non-negative. -/
theorem haversineMeters_welldefined (a b : LatLong) :
    0 ≤ haversineA a b ∧ haversineA a b ≤ 1 ∧ 0 ≤ haversineMeters a b := by
  have h := hav_core_mem (degToRad a.latitude) (degToRad b.latitude)
    (degToRad b.longitude - degToRad a.longitude)
  have hA : haversineA a b =
      Real.sin ((degToRad b.latitude - degToRad a.latitude) / 2) *
        Real.sin ((degToRad b.latitude - degToRad a.latitude) / 2) +
      Real.sin ((degToRad b.longitude - degToRad a.longitude) / 2) *
        Real.sin ((degToRad b.longitude - degToRad a.longitude) / 2) *
        Real.cos (degToRad a.latitude) * Real.cos (degToRad b.latitude) := rfl
  refine ⟨by rw [hA]; exact h.1, by rw [hA]; exact h.2, ?_⟩
  unfold haversineMeters
  apply mul_nonneg
  · norm_num [EARTH_RADIUS_METERS]
  · apply mul_nonneg (by norm_num)
    exact Real.arcsin_nonneg.mpr (Real.sqrt_nonneg _)

/-- Inside the band |lat| ≤ 89 degrees, the sine of the latitude stays
within the clamp bounds [-0.9999, 0.9999]. -/
theorem abs_sin_deg_le (lat : ℝ) (h : |lat| ≤ 89) :
    |Real.sin (lat * Real.pi / 180)| ≤ 0.9999 := by
  have hpi := Real.pi_pos
  rw [abs_le] at h
  have hup : Real.sin (lat * Real.pi / 180) ≤ Real.sin (89 * Real.pi / 180) := by
    apply Real.sin_le_sin_of_le_of_le_pi_div_two (by nlinarith [h.1]) (by nlinarith)
    nlinarith [h.2]
  have hlo : Real.sin (-(89 * Real.pi / 180)) ≤ Real.sin (lat * Real.pi / 180) := by
    apply Real.sin_le_sin_of_le_of_le_pi_div_two (by nlinarith) (by nlinarith [h.2])
    nlinarith [h.1]
  rw [Real.sin_neg] at hlo
  have hcos : Real.sin (89 * Real.pi / 180) = Real.cos (Real.pi / 180) := by
    rw [show (89 : ℝ) * Real.pi / 180 = Real.pi / 2 - Real.pi / 180 by ring,
      Real.sin_pi_div_two_sub]
  have hkey : Real.cos (Real.pi / 180) ≤ 0.9999 := by
    have h2m := Real.cos_two_mul (Real.pi / 360)
    rw [show 2 * (Real.pi / 360) = Real.pi / 180 by ring] at h2m
    have hcsq := Real.cos_sq' (Real.pi / 360)
    have hs1 : (0 : ℝ) < Real.pi / 360 := by positivity
    have hlo6 := Real.pi_gt_d6
    have hhi6 := Real.pi_lt_d6
    have hs2 : Real.pi / 360 ≤ 1 := by linarith
    have hsin := Real.sin_gt_sub_cube hs1 hs2
    have hu1 : (0.0087266 : ℝ) < Real.pi / 360 := by linarith
    have hu2 : Real.pi / 360 < 0.0087267 := by linarith
    have hcube : (Real.pi / 360) ^ 3 < (0.0087267 : ℝ) ^ 3 :=
      pow_lt_pow_left hu2 (le_of_lt hs1) (by norm_num)
    have hcube' : ((0.0087267 : ℝ)) ^ 3 < 0.00000067 := by norm_num
    have hs : (0.0087 : ℝ) < Real.sin (Real.pi / 360) := by linarith
    nlinarith [h2m, hcsq, hs, sq_nonneg (Real.sin (Real.pi / 360) - 0.0087)]
  rw [hcos] at hup hlo
  rw [abs_le]
  exact ⟨by linarith, by linarith⟩

/-- C1: for every point with latitude in (-89, 89) and longitude in
(-179, 179), `worldToLatLng (toWorldCoords p)` reproduces `p`'s latitude and
longitude to within 1e-6 (in the real-number model, exactly). -/
theorem worldToLatLng_toWorldCoords (p : LatLong)
    (h1 : -89 < p.latitude) (h2 : p.latitude < 89)
    (h3 : -179 < p.longitude) (h4 : p.longitude < 179) :
    |(worldToLatLng (toWorldCoords p)).latitude - p.latitude| ≤ 1e-6 ∧
    |(worldToLatLng (toWorldCoords p)).longitude - p.longitude| ≤ 1e-6 := by
  have hpi := Real.pi_pos
  have hpin := Real.pi_ne_zero
  have habs : |Real.sin (p.latitude * Real.pi / 180)| ≤ 0.9999 :=
    abs_sin_deg_le p.latitude (by rw [abs_le]; exact ⟨by linarith, by linarith⟩)
  rw [abs_le] at habs
  have hclamp : clamp (Real.sin (p.latitude * Real.pi / 180)) (-0.9999, 0.9999) =
      Real.sin (p.latitude * Real.pi / 180) := by
    unfold clamp
    rw [if_neg (show ¬Real.sin (p.latitude * Real.pi / 180) > (0.9999 : ℝ) by
        push_neg; exact habs.2),
      if_neg (show ¬Real.sin (p.latitude * Real.pi / 180) < (-0.9999 : ℝ) by
        push_neg; exact habs.1)]
  have hlng : (worldToLatLng (toWorldCoords p)).longitude = p.longitude := by
    simp only [worldToLatLng, toWorldCoords, GOOGLE_TILE_SIZE]
    field_simp
    ring
  have hlat : (worldToLatLng (toWorldCoords p)).latitude = p.latitude := by
    simp only [worldToLatLng, toWorldCoords, GOOGLE_TILE_SIZE, EXP_2pi]
    rw [hclamp]
    set s := Real.sin (p.latitude * Real.pi / 180) with hs_def
    have hs_lt_one : s < 1 := lt_of_le_of_lt habs.2 (by norm_num)
    have hs_gt_negone : -1 < s := lt_of_lt_of_le (by norm_num) habs.1
    have h1s : (0 : ℝ) < 1 + s := by linarith
    have h2s : (0 : ℝ) < 1 - s := by linarith
    have hq : (0 : ℝ) < (1 + s) / (1 - s) := div_pos h1s h2s
    have harg : 4 * Real.pi * (256 * (0.5 - Real.log ((1 + s) / (1 - s)) /
        (4 * Real.pi))) / 256 = Real.pi * 2 - Real.log ((1 + s) / (1 - s)) := by
      field_simp
      ring
    rw [harg, Real.exp_sub, Real.exp_log hq]
    have he : (0 : ℝ) < Real.exp (Real.pi * 2) := Real.exp_pos _
    have hsiny : (Real.exp (Real.pi * 2) - Real.exp (Real.pi * 2) / ((1 + s) / (1 - s))) /
        (Real.exp (Real.pi * 2) + Real.exp (Real.pi * 2) / ((1 + s) / (1 - s))) = s := by
      rw [div_div_eq_mul_div]
      have t1 : (0 : ℝ) < Real.exp (Real.pi * 2) * (1 - s) / (1 + s) :=
        div_pos (mul_pos he h2s) h1s
      rw [div_eq_iff (ne_of_gt (by linarith : (0 : ℝ) <
        Real.exp (Real.pi * 2) + Real.exp (Real.pi * 2) * (1 - s) / (1 + s)))]
      field_simp
      ring
    rw [hsiny, hs_def, Real.arcsin_sin (by nlinarith) (by nlinarith)]
    field_simp
  rw [hlat, hlng]
  norm_num

/-- Witness for C1 at the point (0, 0). -/
theorem worldToLatLng_toWorldCoords_witness :
    (-89 : ℝ) < 0 ∧ (0 : ℝ) < 89 ∧ (-179 : ℝ) < 0 ∧ (0 : ℝ) < 179 ∧
    (|(worldToLatLng (toWorldCoords ⟨0, 0⟩)).latitude - (⟨0, 0⟩ : LatLong).latitude| ≤ 1e-6 ∧
      |(worldToLatLng (toWorldCoords ⟨0, 0⟩)).longitude -
        (⟨0, 0⟩ : LatLong).longitude| ≤ 1e-6) :=
  ⟨by norm_num, by norm_num, by norm_num, by norm_num,
    worldToLatLng_toWorldCoords ⟨0, 0⟩ (by norm_num) (by norm_num)
      (by norm_num) (by norm_num)⟩

end Backsplash
